import Mathlib

/-!
Verification of the `make-image-transparent` command-line utility (`main.go`).

The program loads an image, samples the background color at pixel (0,0),
sets the alpha channel to 0 for every pixel whose color is within a
tolerance of the background color, and writes the result as a PNG file.

This file gives a shallow embedding of the program's pure core:
  * `uint8Diff`, `sameColor` with the two tolerance constants;
  * `makeBackgroundTransparent`, the per-pixel transparency pass
    (modelled on the 8-bit RGBA grid that `draw.Draw` produces; decoded
    images have their bounds anchored at the origin, so an image is a
    width, a height and a total pixel function);
  * `getImageType`, the extension-to-format table;
  * `loadImage`'s control flow (file open, then format dispatch);
  * the output-file naming of `main` (`filepath.Ext` and string slicing);
  * `decodeImageFromBase64`'s marker search and its in-place base64
    decode over the very buffer it reads from, together with a pure
    model of Go's `base64.StdEncoding.Decode`.

Machine bytes are modelled as `Nat` values (the code never overflows a
channel: `uint8Diff` subtracts the smaller value from the larger one, and
the base64 byte extraction reduces modulo 256 exactly where Go's `byte`
conversions truncate).
-/

/-- An 8-bit RGBA color (`color.RGBA` in the source); each channel is a
byte, 0–255. -/
structure RGBA where
  R : Nat
  G : Nat
  B : Nat
  A : Nat
deriving DecidableEq, Repr

/-- `var colorTolerance uint8 = 110` (main.go line 219). -/
def colorTolerance : Nat := 110

/-- `var colorToleranceUniform uint8 = 100` (main.go line 220). -/
def colorToleranceUniform : Nat := 100

/-- `uint8Diff` (main.go lines 212–217): absolute difference of two bytes,
computed without underflow by subtracting the smaller from the larger. -/
def uint8Diff (a b : Nat) : Nat :=
  if a > b then a - b else b - a

/-- `sameColor` (main.go lines 222–235): per-channel absolute differences
of R, G, B (alpha ignored); the active tolerance is the uniform one when
all three deltas agree, the general one otherwise; true iff every delta
is at most the active tolerance. -/
def sameColor (a b : RGBA) : Bool :=
  let dR := uint8Diff a.R b.R
  let dG := uint8Diff a.G b.G
  let dB := uint8Diff a.B b.B
  let t := if dR = dG ∧ dG = dB then colorToleranceUniform else colorTolerance
  decide (dR ≤ t) && decide (dG ≤ t) && decide (dB ≤ t)

/-- An 8-bit RGBA image with bounds anchored at the origin: the grid that
`image.NewRGBA(imageData.Bounds())` + `draw.Draw(..., draw.Src)` produces
from a decoded image (decoders return origin-anchored bounds).  `pix` is
total; the transform only ever reads and writes coordinates inside
`[0, width) × [0, height)`. -/
structure Image where
  width : Nat
  height : Nat
  pix : Nat × Nat → RGBA

/-- The coordinates visited by the transform's double loop
(main.go lines 246–254): `x` runs over `[0, width)` in the outer loop and
`y` over `[0, height)` in the inner loop. -/
def coords (w h : Nat) : List (Nat × Nat) :=
  (List.range w).product (List.range h)

/-- `imageRGBA.Opaque()`: every pixel of the grid has alpha `0xff`. -/
def opaqueRGBA (img : Image) : Bool :=
  (coords img.width img.height).all fun c => (img.pix c).A == 255

/-- `imageRGBA.SetRGBA(x, y, v)` on the functional grid. -/
def setRGBA (g : Nat × Nat → RGBA) (c : Nat × Nat) (v : RGBA) :
    Nat × Nat → RGBA :=
  fun d => if d = c then v else g d

/-- One iteration of the transform's inner loop body (main.go
lines 248–252): read the pixel, and if it matches the background color,
write it back with alpha 0. -/
def transformStep (bg : RGBA) (g : Nat × Nat → RGBA) (c : Nat × Nat) :
    Nat × Nat → RGBA :=
  let col := g c
  if sameColor col bg then setRGBA g c { col with A := 0 } else g

/-- The transform's double loop, folded over the visited coordinates. -/
def transformLoop (bg : RGBA) : List (Nat × Nat) → (Nat × Nat → RGBA) →
    (Nat × Nat → RGBA)
  | [], g => g
  | c :: cs, g => transformLoop bg cs (transformStep bg g c)

/-- `makeBackgroundTransparent` (main.go lines 237–258): if the RGBA
conversion of the image is fully opaque, sample the background color at
(0,0), run the loop, and return `(true, result)`; otherwise return
`(false, nil)`. -/
def makeBackgroundTransparent (img : Image) : Bool × Option Image :=
  if opaqueRGBA img then
    let backgroundColor := img.pix (0, 0)
    (true, some { img with
      pix := transformLoop backgroundColor (coords img.width img.height) img.pix })
  else
    (false, none)

/-- The caller's use of the transform (main.go lines 286–289): a `false`
first component aborts the run (`logAndExit`). -/
def driverTransformStep (img : Image) : Except Unit Image :=
  match makeBackgroundTransparent img with
  | (true, some out) => Except.ok out
  | _ => Except.error ()

/-! ### Basic lemmas about the transform -/

theorem uint8Diff_comm (a b : Nat) : uint8Diff a b = uint8Diff b a := by
  unfold uint8Diff
  split <;> split <;> omega

theorem uint8Diff_self (a : Nat) : uint8Diff a a = 0 := by
  simp [uint8Diff]

theorem sameColor_self (a : RGBA) : sameColor a a = true := by
  simp [sameColor, uint8Diff_self, colorToleranceUniform]

/-- If some channel differs by more than the general tolerance, the colors
do not match (whichever tolerance is active, it is at most 110). -/
theorem sameColor_eq_false_of_gt (a b : RGBA)
    (h : 110 < uint8Diff a.R b.R ∨ 110 < uint8Diff a.G b.G ∨
      110 < uint8Diff a.B b.B) :
    sameColor a b = false := by
  simp only [sameColor, ← Bool.decide_and, decide_eq_false_iff_not]
  split
  · simp only [colorToleranceUniform]
    omega
  · simp only [colorTolerance]
    omega

theorem mem_coords {w h : Nat} {c : Nat × Nat} :
    c ∈ coords w h ↔ c.1 < w ∧ c.2 < h := by
  obtain ⟨x, y⟩ := c
  simp [coords, List.mem_product]

theorem coords_nodup (w h : Nat) : (coords w h).Nodup :=
  (List.nodup_range w).product (List.nodup_range h)

theorem transformStep_apply_other (bg : RGBA) (g : Nat × Nat → RGBA)
    (c d : Nat × Nat) (h : d ≠ c) : transformStep bg g c d = g d := by
  unfold transformStep setRGBA
  split
  · simp [h]
  · rfl

theorem transformLoop_apply_not_mem (bg : RGBA) (l : List (Nat × Nat)) :
    ∀ (g : Nat × Nat → RGBA) (c : Nat × Nat), c ∉ l →
      transformLoop bg l g c = g c := by
  induction l with
  | nil => intro g c _; rfl
  | cons a as ih =>
    intro g c hc
    have hne : c ≠ a := fun he => hc (he ▸ List.mem_cons_self a as)
    have hnm : c ∉ as := fun hm => hc (List.mem_cons_of_mem _ hm)
    rw [transformLoop, ih _ c hnm, transformStep_apply_other bg g a c hne]

theorem transformLoop_apply_mem (bg : RGBA) (l : List (Nat × Nat)) :
    ∀ (g : Nat × Nat → RGBA) (c : Nat × Nat), l.Nodup → c ∈ l →
      transformLoop bg l g c =
        (if sameColor (g c) bg then { g c with A := 0 } else g c) := by
  induction l with
  | nil => intro g c _ hc; cases hc
  | cons a as ih =>
    intro g c hnd hc
    have hnd1 : a ∉ as := (List.nodup_cons.mp hnd).1
    have hnd2 : as.Nodup := (List.nodup_cons.mp hnd).2
    rcases List.mem_cons.mp hc with h1 | h2
    · subst h1
      rw [transformLoop, transformLoop_apply_not_mem bg as _ c hnd1]
      unfold transformStep setRGBA
      split
      · simp
      · rfl
    · have hca : c ≠ a := fun he => hnd1 (he ▸ h2)
      rw [transformLoop, ih _ c hnd2 h2,
        transformStep_apply_other bg g a c hca]

/-- `Opaque()` characterised pointwise over the grid. -/
theorem opaqueRGBA_iff (img : Image) :
    opaqueRGBA img = true ↔
      ∀ x y, x < img.width → y < img.height → (img.pix (x, y)).A = 255 := by
  unfold opaqueRGBA
  rw [List.all_eq_true]
  constructor
  · intro h x y hx hy
    have := h (x, y) (mem_coords.mpr ⟨hx, hy⟩)
    simpa using this
  · intro h c hc
    obtain ⟨x, y⟩ := c
    have := h x y (mem_coords.mp hc).1 (mem_coords.mp hc).2
    simpa using this

/-- When the image is opaque the transform succeeds, keeps the
dimensions, and maps each in-range pixel pointwise: alpha is zeroed
exactly on pixels matching the background color at (0,0). -/
theorem makeBackgroundTransparent_pix (img : Image)
    (h : opaqueRGBA img = true) :
    ∃ out, makeBackgroundTransparent img = (true, some out) ∧
      out.width = img.width ∧ out.height = img.height ∧
      ∀ x y, x < img.width → y < img.height →
        out.pix (x, y) =
          (if sameColor (img.pix (x, y)) (img.pix (0, 0)) then
            { img.pix (x, y) with A := 0 } else img.pix (x, y)) := by
  have hout : makeBackgroundTransparent img = (true, some { img with
      pix := transformLoop (img.pix (0, 0)) (coords img.width img.height)
        img.pix }) := by
    unfold makeBackgroundTransparent
    rw [if_pos h]
  refine ⟨_, hout, rfl, rfl, ?_⟩
  intro x y hx hy
  exact transformLoop_apply_mem (img.pix (0, 0))
    (coords img.width img.height) img.pix (x, y)
    (coords_nodup img.width img.height) (mem_coords.mpr ⟨hx, hy⟩)

/-! ### Claim C1: the tolerance rule of `sameColor` -/

/-- C1: for every pair of RGBA colors, `sameColor` computes the
per-channel absolute differences dR, dG, dB of the R, G, B channels
(alpha ignored); when dR = dG = dB it returns true iff the common delta
is ≤ 100, and when the deltas are not all equal it returns true iff every
per-channel delta is ≤ 110. -/
theorem sameColor_tolerance_spec (a b : RGBA) :
    (uint8Diff a.R b.R = uint8Diff a.G b.G →
      uint8Diff a.G b.G = uint8Diff a.B b.B →
      (sameColor a b = true ↔ uint8Diff a.R b.R ≤ 100)) ∧
    (¬(uint8Diff a.R b.R = uint8Diff a.G b.G ∧
        uint8Diff a.G b.G = uint8Diff a.B b.B) →
      (sameColor a b = true ↔
        uint8Diff a.R b.R ≤ 110 ∧ uint8Diff a.G b.G ≤ 110 ∧
          uint8Diff a.B b.B ≤ 110)) ∧
    (∀ x y : Nat, sameColor { a with A := x } { b with A := y } =
      sameColor a b) := by
  refine ⟨?_, ?_, fun x y => rfl⟩
  · intro h1 h2
    simp only [sameColor, ← Bool.decide_and, decide_eq_true_eq]
    split
    · simp only [colorToleranceUniform]
      omega
    · rename_i hn
      exact absurd ⟨h1, h2⟩ hn
  · intro hn
    simp only [sameColor, ← Bool.decide_and, decide_eq_true_eq]
    split
    · rename_i hu
      exact absurd hu hn
    · simp only [colorTolerance]
      omega

theorem sameColor_tolerance_spec_witness :
    sameColor ⟨200, 200, 200, 255⟩ ⟨100, 100, 100, 255⟩ = true ∧
    sameColor ⟨110, 10, 0, 255⟩ ⟨0, 0, 0, 255⟩ = true :=
  ⟨((sameColor_tolerance_spec ⟨200, 200, 200, 255⟩ ⟨100, 100, 100, 255⟩).1
      rfl rfl).mpr (by decide),
   ((sameColor_tolerance_spec ⟨110, 10, 0, 255⟩ ⟨0, 0, 0, 255⟩).2.1
      (by decide)).mpr (by decide)⟩

/-! ### Claim C2: a solid-color image becomes fully transparent -/

/-- C2: for every fully opaque image filled entirely with one solid
color, `makeBackgroundTransparent` returns applied = true and a result in
which every pixel has alpha 0 and unchanged R, G, B values. -/
theorem makeBackgroundTransparent_solid (img : Image) (c : RGBA)
    (hA : c.A = 255)
    (hfill : ∀ x y, x < img.width → y < img.height → img.pix (x, y) = c) :
    ∃ out, makeBackgroundTransparent img = (true, some out) ∧
      ∀ x y, x < img.width → y < img.height →
        out.pix (x, y) =
          ⟨(img.pix (x, y)).R, (img.pix (x, y)).G, (img.pix (x, y)).B, 0⟩ := by
  have hop : opaqueRGBA img = true :=
    (opaqueRGBA_iff img).mpr fun x y hx hy => by rw [hfill x y hx hy, hA]
  obtain ⟨out, hout, hw, hh, hpix⟩ := makeBackgroundTransparent_pix img hop
  refine ⟨out, hout, ?_⟩
  intro x y hx hy
  have h0 : img.pix (0, 0) = c := hfill 0 0 (by omega) (by omega)
  rw [hpix x y hx hy, hfill x y hx hy, h0]
  simp [sameColor_self]

def solidRed1 : Image := ⟨1, 1, fun _ => ⟨255, 0, 0, 255⟩⟩

theorem makeBackgroundTransparent_solid_witness :
    (makeBackgroundTransparent solidRed1).1 = true ∧
    ((makeBackgroundTransparent solidRed1).2.map fun o => o.pix (0, 0)) =
      some ⟨255, 0, 0, 0⟩ := by
  obtain ⟨out, hout, hpix⟩ :=
    makeBackgroundTransparent_solid solidRed1 ⟨255, 0, 0, 255⟩ rfl
      (fun _ _ _ _ => rfl)
  rw [hout]
  refine ⟨rfl, ?_⟩
  have h00 := hpix 0 0 (by decide) (by decide)
  show Option.map (fun o => o.pix (0, 0)) (some out) = some ⟨255, 0, 0, 0⟩
  simp only [Option.map_some']
  rw [h00]
  rfl

/-! ### Claim C3: applied = false exactly on non-opaque images -/

theorem makeBackgroundTransparent_fst (img : Image) :
    (makeBackgroundTransparent img).1 = opaqueRGBA img := by
  unfold makeBackgroundTransparent
  split <;> simp_all

theorem makeBackgroundTransparent_not_opaque (img : Image)
    (h : opaqueRGBA img = false) :
    makeBackgroundTransparent img = (false, none) := by
  unfold makeBackgroundTransparent
  rw [if_neg (show ¬ opaqueRGBA img = true by simp [h])]

/-- C3: the transform returns applied = false — mutating nothing and
returning no result image — iff the RGBA grid contains a non-opaque
pixel; the caller then aborts (`driverTransformStep` errors), and a
successful run on a nonempty image yields a non-opaque output, so a
second run reports applied = false. -/
theorem makeBackgroundTransparent_applied_false_iff (img : Image) :
    ((makeBackgroundTransparent img).1 = false ↔
      ∃ x y, x < img.width ∧ y < img.height ∧ (img.pix (x, y)).A ≠ 255) ∧
    ((makeBackgroundTransparent img).1 = false →
      (makeBackgroundTransparent img).2 = none ∧
      driverTransformStep img = Except.error ()) ∧
    (∀ out, makeBackgroundTransparent img = (true, some out) →
      0 < img.width → 0 < img.height →
      (makeBackgroundTransparent out).1 = false) := by
  have hfst := makeBackgroundTransparent_fst img
  refine ⟨?_, ?_, ?_⟩
  · rw [hfst, Bool.eq_false_iff, Ne, opaqueRGBA_iff]
    push_neg
    constructor
    · rintro ⟨x, y, hx, hy, hne⟩
      exact ⟨x, y, hx, hy, hne⟩
    · rintro ⟨x, y, hx, hy, hne⟩
      exact ⟨x, y, hx, hy, hne⟩
  · intro h
    have hop : opaqueRGBA img = false := by rw [← hfst]; exact h
    have heq := makeBackgroundTransparent_not_opaque img hop
    refine ⟨by rw [heq], ?_⟩
    unfold driverTransformStep
    rw [heq]
  · intro out hout hw hh
    have hop : opaqueRGBA img = true := by
      rw [← hfst, hout]
    obtain ⟨out', hout', hw', hh', hpix⟩ := makeBackgroundTransparent_pix img hop
    have hoo : out = out' := by
      rw [hout] at hout'
      simpa using hout'
    have hA0 : (out.pix (0, 0)).A = 0 := by
      rw [hoo, hpix 0 0 hw hh]
      simp [sameColor_self]
    rw [makeBackgroundTransparent_fst, Bool.eq_false_iff, Ne]
    intro hopq
    have h255 := (opaqueRGBA_iff out).mp hopq 0 0
      (by rw [hoo, hw']; exact hw) (by rw [hoo, hh']; exact hh)
    omega

def nonOpaque1 : Image := ⟨1, 1, fun _ => ⟨5, 6, 7, 0⟩⟩

theorem makeBackgroundTransparent_applied_false_iff_witness :
    (makeBackgroundTransparent nonOpaque1).1 = false ∧
    driverTransformStep nonOpaque1 = Except.error () := by
  have h := makeBackgroundTransparent_applied_false_iff nonOpaque1
  have h1 : (makeBackgroundTransparent nonOpaque1).1 = false :=
    h.1.mpr ⟨0, 0, by decide, by decide, by decide⟩
  exact ⟨h1, (h.2.1 h1).2⟩

/-! ### Claim C4: the 2×2 red/green scenario -/

def img2x2 : Image :=
  ⟨2, 2, fun c => if c = (1, 1) then ⟨0, 255, 0, 255⟩ else ⟨255, 0, 0, 255⟩⟩

/-- C4: on the fully opaque 2×2 image with (255,0,0) at (0,0), (1,0),
(0,1) and (0,255,0) at (1,1), the transform applies and the output alphas
at those positions are 0, 0, 0, 255, with all RGB values unchanged. -/
theorem makeBackgroundTransparent_scenario2x2 :
    (makeBackgroundTransparent img2x2).1 = true ∧
    ((makeBackgroundTransparent img2x2).2.map fun o =>
      (o.pix (0, 0), o.pix (1, 0), o.pix (0, 1), o.pix (1, 1))) =
      some (⟨255, 0, 0, 0⟩, ⟨255, 0, 0, 0⟩, ⟨255, 0, 0, 0⟩,
        ⟨0, 255, 0, 255⟩) := by
  constructor <;> rfl

/-! ### Claim C5: background/foreground separation -/

/-- C5: for a fully opaque image made of a background color (the pixel at
(0,0)) and a foreground color differing from it by more than 110 in some
channel, the transform applies, zeroes alpha exactly on the background
pixels (keeping their RGB), and leaves every foreground pixel — alpha and
RGB — unchanged. -/
theorem makeBackgroundTransparent_two_colors (img : Image) (bg fg : RGBA)
    (hbg : img.pix (0, 0) = bg)
    (hcol : ∀ x y, x < img.width → y < img.height →
      img.pix (x, y) = bg ∨ img.pix (x, y) = fg)
    (hopq : ∀ x y, x < img.width → y < img.height →
      (img.pix (x, y)).A = 255)
    (hdelta : 110 < uint8Diff bg.R fg.R ∨ 110 < uint8Diff bg.G fg.G ∨
      110 < uint8Diff bg.B fg.B) :
    ∃ out, makeBackgroundTransparent img = (true, some out) ∧
      ∀ x y, x < img.width → y < img.height →
        (img.pix (x, y) = bg → out.pix (x, y) = ⟨bg.R, bg.G, bg.B, 0⟩) ∧
        (img.pix (x, y) = fg → out.pix (x, y) = fg) := by
  have hop : opaqueRGBA img = true := (opaqueRGBA_iff img).mpr hopq
  obtain ⟨out, hout, hw, hh, hpix⟩ := makeBackgroundTransparent_pix img hop
  refine ⟨out, hout, ?_⟩
  intro x y hx hy
  constructor
  · intro hpx
    rw [hpix x y hx hy, hpx, hbg]
    simp [sameColor_self]
  · intro hpx
    have hsc : sameColor fg bg = false := by
      refine sameColor_eq_false_of_gt fg bg ?_
      rcases hdelta with h | h | h
      · exact Or.inl (by rw [uint8Diff_comm]; exact h)
      · exact Or.inr (Or.inl (by rw [uint8Diff_comm]; exact h))
      · exact Or.inr (Or.inr (by rw [uint8Diff_comm]; exact h))
    rw [hpix x y hx hy, hpx, hbg]
    simp [hsc]

def twoColorImg : Image :=
  ⟨2, 1, fun c => if c = (1, 0) then ⟨0, 0, 0, 255⟩ else ⟨255, 255, 255, 255⟩⟩

theorem makeBackgroundTransparent_two_colors_witness :
    ((makeBackgroundTransparent twoColorImg).2.map fun o =>
      (o.pix (0, 0), o.pix (1, 0))) =
      some (⟨255, 255, 255, 0⟩, ⟨0, 0, 0, 255⟩) := by
  obtain ⟨out, hout, hpt⟩ :=
    makeBackgroundTransparent_two_colors twoColorImg ⟨255, 255, 255, 255⟩
      ⟨0, 0, 0, 255⟩ rfl
      (by intro x y hx hy
          have hx' : x < 2 := hx
          have hy' : y < 1 := hy
          have hx2 : x = 0 ∨ x = 1 := by omega
          have hy0 : y = 0 := by omega
          rcases hx2 with h | h <;> subst h <;> subst hy0 <;> decide)
      (by intro x y hx hy
          have hx' : x < 2 := hx
          have hy' : y < 1 := hy
          have hx2 : x = 0 ∨ x = 1 := by omega
          have hy0 : y = 0 := by omega
          rcases hx2 with h | h <;> subst h <;> subst hy0 <;> decide)
      (by decide)
  rw [hout]
  have h1 := (hpt 0 0 (by decide) (by decide)).1 (by decide)
  have h2 := (hpt 1 0 (by decide) (by decide)).2 (by decide)
  show Option.map (fun o => (o.pix (0, 0), o.pix (1, 0))) (some out) =
    some (⟨255, 255, 255, 0⟩, ⟨0, 0, 0, 255⟩)
  simp only [Option.map_some']
  rw [h1, h2]

/-! ### Format tags and the extension table -/

/-- The `ImageTypes` enumeration (main.go lines 33–53). -/
inductive ImageType where
  | JPEG
  | PNG
  | BMP
  | TIFF
  | GIF
  | WEBP
  | UNSUPPORTED
deriving DecidableEq, Repr

/-- `strings.ToLower`, per-character simple lowercasing (the extension
table is pure ASCII, where Go's Unicode lowercasing and `Char.toLower`
agree). -/
def toLowerString (s : String) : String :=
  String.mk (s.toList.map Char.toLower)

/-- `getImageType` (main.go lines 55–74): switch on the lowercased
extension string, in source order, defaulting to UNSUPPORTED. -/
def getImageType (fileExt : String) : ImageType :=
  let t := toLowerString fileExt
  if t = "jpg" then ImageType.JPEG
  else if t = "jpeg" then ImageType.JPEG
  else if t = "png" then ImageType.PNG
  else if t = "bmp" then ImageType.BMP
  else if t = "tiff" then ImageType.TIFF
  else if t = "gif" then ImageType.GIF
  else if t = "webp" then ImageType.WEBP
  else ImageType.UNSUPPORTED

/-- The fixed extension table exactly as the spec words it:
{jpg/jpeg→JPEG, png→PNG, bmp→BMP, tiff→TIFF, gif→GIF, webp→WEBP}. -/
def specFormatTable : List (String × ImageType) :=
  [("jpg", ImageType.JPEG), ("jpeg", ImageType.JPEG),
   ("png", ImageType.PNG), ("bmp", ImageType.BMP),
   ("tiff", ImageType.TIFF), ("gif", ImageType.GIF),
   ("webp", ImageType.WEBP)]

/-- Format resolution as the spec words it: look the lowercased string up
in the fixed table, anything else (including "") maps to UNSUPPORTED. -/
def specResolveFormat (s : String) : ImageType :=
  (specFormatTable.lookup (toLowerString s)).getD ImageType.UNSUPPORTED

/-- C6: for every file-extension string, `getImageType` lowercases it and
maps jpg and jpeg to JPEG, png to PNG, bmp to BMP, tiff to TIFF, gif to
GIF, webp to WEBP, and every other string (including the empty string) to
UNSUPPORTED — i.e. it agrees with the spec's fixed lookup table. -/
theorem getImageType_spec_table (s : String) :
    getImageType s = specResolveFormat s := by
  unfold getImageType specResolveFormat specFormatTable
  generalize toLowerString s = t
  simp only [List.lookup]
  repeat' split
  all_goals simp_all [beq_iff_eq, beq_eq_false_iff_ne]

/-! ### Claim C7: `loadImage` on an UNSUPPORTED format tag -/

/-- The observable outcome of `loadImage` (main.go lines 91–122): the
file is opened first (`os.Open`, aborting on failure), then the format
tag is dispatched — UNSUPPORTED aborts before any decoder touches the
file's content; any other tag hands the content to its codec. -/
inductive LoadOutcome where
  | openError
  | unsupportedError
  | decodeAttempt (content : List Nat) (t : ImageType)
deriving DecidableEq, Repr

/-- `loadImage`'s control flow: `openResult` is `none` when `os.Open`
fails (the environment's contribution), `some content` otherwise. -/
def loadImage (openResult : Option (List Nat)) (imageType : ImageType) :
    LoadOutcome :=
  match openResult with
  | none => LoadOutcome.openError
  | some content =>
    match imageType with
    | ImageType.UNSUPPORTED => LoadOutcome.unsupportedError
    | t => LoadOutcome.decodeAttempt content t

def isDecodeAttempt : LoadOutcome → Bool
  | LoadOutcome.decodeAttempt _ _ => true
  | _ => false

/-- C7 counterexample: the claim promises an unsupported-format error for
*every* input path with an UNSUPPORTED extension, but when the file
cannot be opened the program fails with the file-open error instead
(`os.Open` runs before the format dispatch). -/
theorem loadImage_unsupported_counterexample :
    loadImage none ImageType.UNSUPPORTED ≠ LoadOutcome.unsupportedError := by
  decide

/-- C7 (amended): for an UNSUPPORTED format tag, once the file opens the
program fails with the unsupported-format error, and no decode of the
byte stream is ever attempted (whether or not the open succeeds); when
the open fails, the failure is the file-open error, still before any
read of image content. -/
theorem loadImage_unsupported_no_decode :
    (∀ content, loadImage (some content) ImageType.UNSUPPORTED =
      LoadOutcome.unsupportedError) ∧
    (∀ openResult,
      isDecodeAttempt (loadImage openResult ImageType.UNSUPPORTED) = false) ∧
    (∀ t, loadImage none t = LoadOutcome.openError) := by
  refine ⟨fun _ => rfl, ?_, fun _ => rfl⟩
  intro o
  cases o <;> rfl

/-! ### Claim C9: the output file name; Claim C10: extension slicing -/

/-- `filepath.Ext`, scanning the path from its end: stop at a path
separator, return the suffix from the last dot of the final element,
empty if there is none.  The accumulator carries the characters already
scanned, in original order. -/
def filepathExtAux : List Char → List Char → List Char
  | [], _ => []
  | c :: rest, acc =>
    if c = '/' then []
    else if c = '.' then c :: acc
    else filepathExtAux rest (c :: acc)

def filepathExt (path : List Char) : List Char :=
  filepathExtAux path.reverse []

/-- The output path built by `main` (main.go lines 275, 277, 291):
`"out__" + fileName[0:len(fileName)-len(ext)] + ".png"`. -/
def outFileName (fileName : List Char) : List Char :=
  let fileExt := filepathExt fileName
  let fileNameNoExt := fileName.take (fileName.length - fileExt.length)
  ("out__".toList) ++ fileNameNoExt ++ (".png".toList)

/-- The base name of a path as the spec's words use it: the final
slash-separated element. -/
def specBasename (path : List Char) : List Char :=
  (path.reverse.takeWhile (fun c => c != '/')).reverse

/-- The output name as the claim words it:
`out__<input-basename-without-extension>.png`. -/
def specOutFileName (path : List Char) : List Char :=
  let base := specBasename path
  ("out__".toList) ++ base.take (base.length - (filepathExt base).length) ++
    (".png".toList)

/-- `createFile` (main.go lines 76–89) followed by `png.Encode`: the
pre-existing file at the output path, if any, is deleted and replaced;
no other path is touched. -/
def runOutput (fs : List Char → Option (List Nat)) (fileName : List Char)
    (pngBytes : List Nat) : List Char → Option (List Nat) :=
  fun p => if p = outFileName fileName then some pngBytes else fs p

/-- C9 counterexample: for the input path "a/b.png" the program writes
"out__a/b.png" (the full path minus extension, resolved relative to the
working directory), not "out__b.png" as the basename wording promises. -/
theorem outFileName_counterexample :
    outFileName ("a/b.png".toList) ≠ specOutFileName ("a/b.png".toList) ∧
    outFileName ("a/b.png".toList) = ("out__a/b.png".toList) := by
  decide

/-- C9 (amended): for an input file name with no directory component the
output is the single file `out__<basename-without-extension>.png` in the
working directory, overwriting whatever was at that path and touching no
other path; for paths with a directory component the name is instead
`out__` glued onto the full path minus its extension. -/
theorem outFileName_spec (path : List Char) (h : '/' ∉ path) :
    outFileName path = specOutFileName path ∧
    (∀ fs pngBytes,
      runOutput fs path pngBytes (outFileName path) = some pngBytes) ∧
    (∀ fs pngBytes p, p ≠ outFileName path →
      runOutput fs path pngBytes p = fs p) := by
  refine ⟨?_, fun fs b => by simp [runOutput],
    fun fs b p hp => by simp [runOutput, hp]⟩
  have hbase : specBasename path = path := by
    unfold specBasename
    have htw : path.reverse.takeWhile (fun c => c != '/') = path.reverse := by
      rw [List.takeWhile_eq_self_iff]
      intro c hc
      have hcp : c ∈ path := List.mem_reverse.mp hc
      have hne : c ≠ '/' := fun he => h (he ▸ hcp)
      simpa [bne_iff_ne] using hne
    rw [htw, List.reverse_reverse]
  unfold outFileName specOutFileName
  rw [hbase]

theorem outFileName_spec_witness :
    outFileName ("b.png".toList) = specOutFileName ("b.png".toList) ∧
    runOutput (fun _ => some [0]) ("b.png".toList) [1, 2]
      (outFileName ("b.png".toList)) = some [1, 2] :=
  ⟨(outFileName_spec ("b.png".toList) (by decide)).1,
   (outFileName_spec ("b.png".toList) (by decide)).2.1 (fun _ => some [0])
     [1, 2]⟩

/-- Go's `fileExt[1:]` (main.go line 276): a string slice from index 1 is
only defined when the string is nonempty; on the empty string the program
panics (slice bounds out of range), modelled as `none`. -/
def stringSliceFrom1 : List Char → Option (List Char)
  | [] => none
  | _ :: rest => some rest

/-- The driver's format resolution (main.go lines 275–276):
`getImageType(filepath.Ext(fileName)[1:])`, `none` when the slice
panics. -/
def driverResolveImageType (fileName : List Char) : Option ImageType :=
  (stringSliceFrom1 (filepathExt fileName)).map
    (fun e => getImageType (String.mk e))

/-- C10: on a file name with no dot — "README" — `filepath.Ext` is empty,
so `fileExt[1:]` is out of range and the program panics (`none`) instead
of reaching `getImageType`; the claim's expected clean outcome would have
been `getImageType "" = UNSUPPORTED`. -/
theorem driverResolveImageType_readme :
    driverResolveImageType ("README".toList) = none ∧
    filepathExt ("README".toList) = [] ∧
    getImageType "" = ImageType.UNSUPPORTED :=
  ⟨rfl, rfl, rfl⟩

/-! ### Claim C8: the data-URI base64 decode

`decodeImageFromBase64` (main.go lines 157–210) finds the first
occurrence of `"base64,"` in the buffer and calls
`base64.StdEncoding.Decode(data, data[idx+7:])` — destination and source
alias the same buffer, the destination starting at offset 0 and the
source at offset idx+7.  Go's decoder consumes at least four source
bytes per quantum while producing at most three, reading each quantum
completely before writing it, so the write cursor never catches up with
the read cursor.  The whole (partly overwritten) buffer is then handed
to the image decoder.

`decodeQuantum` below models one quantum of Go's
`Encoding.decodeQuantum` for `StdEncoding`: skip `\n`/`\r`, read four
alphabet bytes (or two/three followed by `=` padding at the end), fail
on anything else; `byte(...)` truncations are the `% 256` reductions. -/

/-- The standard base64 alphabet value of a byte: A–Z, a–z, 0–9, `+`,
`/`. -/
def b64Val (c : Nat) : Option Nat :=
  if 65 ≤ c ∧ c ≤ 90 then some (c - 65)
  else if 97 ≤ c ∧ c ≤ 122 then some (c - 97 + 26)
  else if 48 ≤ c ∧ c ≤ 57 then some (c - 48 + 52)
  else if c = 43 then some 62
  else if c = 47 then some 63
  else none

/-- The next source byte, skipping the newline bytes (10, 13) that Go's
decoder ignores. -/
def nextB64Char : List Nat → Option (Nat × List Nat)
  | [] => none
  | c :: rest => if c = 10 ∨ c = 13 then nextB64Char rest else some (c, rest)

/-- One quantum of Go's standard base64 decoding: `Except.ok none` is the
clean end of input (nothing but newlines left), `Except.ok (some (bytes,
rest))` yields the decoded bytes and the remaining source, and
`Except.error ()` is `CorruptInputError`. -/
def decodeQuantum (src : List Nat) :
    Except Unit (Option (List Nat × List Nat)) :=
  match nextB64Char src with
  | none => Except.ok none
  | some (c0, r0) =>
    match b64Val c0 with
    | none => Except.error ()
    | some v0 =>
      match nextB64Char r0 with
      | none => Except.error ()
      | some (c1, r1) =>
        match b64Val c1 with
        | none => Except.error ()
        | some v1 =>
          match nextB64Char r1 with
          | none => Except.error ()
          | some (c2, r2) =>
            match b64Val c2 with
            | none =>
              if c2 = 61 then
                match nextB64Char r2 with
                | none => Except.error ()
                | some (c3, r3) =>
                  if c3 = 61 then
                    match nextB64Char r3 with
                    | none =>
                      Except.ok (some ([(v0 * 4 + v1 / 16) % 256], []))
                    | some _ => Except.error ()
                  else Except.error ()
              else Except.error ()
            | some v2 =>
              match nextB64Char r2 with
              | none => Except.error ()
              | some (c3, r3) =>
                match b64Val c3 with
                | none =>
                  if c3 = 61 then
                    match nextB64Char r3 with
                    | none =>
                      Except.ok (some ([(v0 * 4 + v1 / 16) % 256,
                        (v1 * 16 + v2 / 4) % 256], []))
                    | some _ => Except.error ()
                  else Except.error ()
                | some v3 =>
                  Except.ok (some ([(v0 * 4 + v1 / 16) % 256,
                    (v1 * 16 + v2 / 4) % 256, (v2 * 64 + v3) % 256], r3))

/-- Pure decode loop (what `Decode` computes into a fresh buffer); the
fuel argument dominates the quantum count, each quantum consuming at
least one source byte. -/
def b64DecodeLoop : Nat → List Nat → Except Unit (List Nat)
  | 0, _ => Except.error ()
  | fuel + 1, src =>
    match decodeQuantum src with
    | Except.error e => Except.error e
    | Except.ok none => Except.ok []
    | Except.ok (some (bytes, rest)) =>
      match b64DecodeLoop fuel rest with
      | Except.error e => Except.error e
      | Except.ok tl => Except.ok (bytes ++ tl)

/-- Go's `base64.StdEncoding.Decode` into a fresh destination buffer:
the standard base64 decoding of `src`. -/
def goB64Decode (src : List Nat) : Except Unit (List Nat) :=
  b64DecodeLoop (src.length + 1) src

/-- Overwrite `buf[p : p + vs.length)` with `vs`. -/
def overwriteAt (buf : List Nat) (p : Nat) (vs : List Nat) : List Nat :=
  buf.take p ++ vs ++ buf.drop (p + vs.length)

/-- The aliased `Decode(data, data[idx+7:])` call: each quantum reads
from the current buffer at the read cursor `rp` and writes its output at
the write cursor `wp`. -/
def b64InPlaceLoop : Nat → List Nat → Nat → Nat → Except Unit (List Nat × Nat)
  | 0, _, _, _ => Except.error ()
  | fuel + 1, buf, wp, rp =>
    match decodeQuantum (buf.drop rp) with
    | Except.error e => Except.error e
    | Except.ok none => Except.ok (buf, wp)
    | Except.ok (some (bytes, rest)) =>
      b64InPlaceLoop fuel (overwriteAt buf wp bytes) (wp + bytes.length)
        (rp + (buf.length - rp - rest.length))

/-- `"base64,"` as bytes. -/
def base64Marker : List Nat := [98, 97, 115, 101, 54, 52, 44]

def listStartsWith : List Nat → List Nat → Bool
  | _, [] => true
  | [], _ :: _ => false
  | a :: as, b :: bs => a == b && listStartsWith as bs

/-- `bytes.Index`: the first index at which `pat` occurs in the list,
`none` when it does not occur. -/
def bytesIndex (pat : List Nat) : List Nat → Option Nat
  | [] => if listStartsWith [] pat then some 0 else none
  | a :: rest =>
    if listStartsWith (a :: rest) pat then some 0
    else (bytesIndex pat rest).map (· + 1)

/-- `decodeImageFromBase64`'s buffer handling (main.go lines 176–186): if
`"base64,"` occurs, decode the bytes after its first occurrence in place
over the front of the same buffer (`Base64DecodeError` aborts); the
resulting buffer — not just its decoded prefix — is what
`bytes.NewBuffer(data)` hands to the image decoder. -/
def decodeImageFromBase64Buf (data : List Nat) : Except Unit (List Nat) :=
  match bytesIndex base64Marker data with
  | none => Except.ok data
  | some idx =>
    match b64InPlaceLoop (data.length + 1) data 0 (idx + 7) with
    | Except.error e => Except.error e
    | Except.ok (buf, _) => Except.ok buf

/-! #### List bookkeeping for the overwriting decode -/

theorem take_append_len (l1 l2 : List Nat) (n : Nat) :
    (l1 ++ l2).take (l1.length + n) = l1 ++ l2.take n := by
  induction l1 with
  | nil => simp
  | cons a as ih =>
    simp only [List.cons_append, List.length_cons]
    rw [Nat.succ_add, List.take_succ_cons, ih]

theorem drop_append_len (l1 l2 : List Nat) (n : Nat) :
    (l1 ++ l2).drop (l1.length + n) = l2.drop n := by
  induction l1 with
  | nil => simp
  | cons a as ih =>
    simp only [List.cons_append, List.length_cons]
    rw [Nat.succ_add, List.drop_succ_cons, ih]

theorem drop_of_drop (src r1 : List Nat) (k1 k2 : Nat)
    (h1 : r1 = src.drop k1) : r1.drop k2 = src.drop (k1 + k2) := by
  subst h1
  rw [List.drop_drop]

theorem overwriteAt_nil (buf : List Nat) (p : Nat) :
    overwriteAt buf p [] = buf := by
  unfold overwriteAt
  simp

theorem overwriteAt_length (buf vs : List Nat) (p : Nat)
    (h : p + vs.length ≤ buf.length) :
    (overwriteAt buf p vs).length = buf.length := by
  unfold overwriteAt
  simp only [List.length_append, List.length_take, List.length_drop]
  omega

theorem overwriteAt_drop_ge (buf vs : List Nat) (p q : Nat)
    (hp : p ≤ buf.length) (h : p + vs.length ≤ q) :
    (overwriteAt buf p vs).drop q = buf.drop q := by
  unfold overwriteAt
  have hl : (buf.take p ++ vs).length = p + vs.length := by
    simp only [List.length_append, List.length_take]
    omega
  have hq : q = (buf.take p ++ vs).length + (q - (p + vs.length)) := by
    rw [hl]; omega
  nth_rewrite 1 [hq]
  rw [drop_append_len,
    drop_of_drop buf (buf.drop (p + vs.length)) (p + vs.length)
      (q - (p + vs.length)) rfl]
  congr 1
  omega

theorem overwriteAt_append (buf vs1 vs2 : List Nat) (p : Nat)
    (hp : p ≤ buf.length) :
    overwriteAt (overwriteAt buf p vs1) (p + vs1.length) vs2 =
      overwriteAt buf p (vs1 ++ vs2) := by
  have hdrop : (overwriteAt buf p vs1).drop (p + vs1.length + vs2.length) =
      buf.drop (p + vs1.length + vs2.length) :=
    overwriteAt_drop_ge buf vs1 p _ hp (by omega)
  have htake : (overwriteAt buf p vs1).take (p + vs1.length) =
      buf.take p ++ vs1 := by
    unfold overwriteAt
    have hl : (buf.take p ++ vs1).length = p + vs1.length := by
      simp only [List.length_append, List.length_take]
      omega
    have hq : p + vs1.length = (buf.take p ++ vs1).length + 0 := by
      rw [hl]
      omega
    rw [hq, take_append_len]
    simp
  show (overwriteAt buf p vs1).take (p + vs1.length) ++ vs2 ++
      (overwriteAt buf p vs1).drop (p + vs1.length + vs2.length) =
    buf.take p ++ (vs1 ++ vs2) ++ buf.drop (p + (vs1 ++ vs2).length)
  rw [htake, hdrop]
  simp only [List.length_append, List.append_assoc, Nat.add_assoc]

/-! #### The quantum consumes at least four bytes and produces at most
three -/

theorem nextB64Char_some (src : List Nat) :
    ∀ c rest, nextB64Char src = some (c, rest) →
      ∃ k, k < src.length ∧ rest = src.drop (k + 1) := by
  induction src with
  | nil => intro c rest h; cases h
  | cons a as ih =>
    intro c rest h
    rw [nextB64Char] at h
    split at h
    · obtain ⟨k, hk, hr⟩ := ih c rest h
      refine ⟨k + 1, by simpa using Nat.succ_lt_succ hk, ?_⟩
      simpa using hr
    · cases h
      exact ⟨0, by simp, rfl⟩

theorem decodeQuantum_some (src bytes rest : List Nat)
    (h : decodeQuantum src = Except.ok (some (bytes, rest))) :
    bytes.length ≤ 3 ∧ ∃ c, 4 ≤ c ∧ c ≤ src.length ∧ rest = src.drop c := by
  unfold decodeQuantum at h
  cases hn0 : nextB64Char src with
  | none => rw [hn0] at h; exact absurd h (by simp)
  | some p0 =>
  obtain ⟨c0, r0⟩ := p0
  rw [hn0] at h
  dsimp only at h
  cases hv0 : b64Val c0 with
  | none => rw [hv0] at h; exact absurd h (by simp)
  | some v0 =>
  rw [hv0] at h
  dsimp only at h
  cases hn1 : nextB64Char r0 with
  | none => rw [hn1] at h; exact absurd h (by simp)
  | some p1 =>
  obtain ⟨c1, r1⟩ := p1
  rw [hn1] at h
  dsimp only at h
  cases hv1 : b64Val c1 with
  | none => rw [hv1] at h; exact absurd h (by simp)
  | some v1 =>
  rw [hv1] at h
  dsimp only at h
  cases hn2 : nextB64Char r1 with
  | none => rw [hn2] at h; exact absurd h (by simp)
  | some p2 =>
  obtain ⟨c2, r2⟩ := p2
  rw [hn2] at h
  dsimp only at h
  obtain ⟨k0, hk0, hr0⟩ := nextB64Char_some src c0 r0 hn0
  obtain ⟨k1, hk1, hr1⟩ := nextB64Char_some r0 c1 r1 hn1
  obtain ⟨k2, hk2, hr2⟩ := nextB64Char_some r1 c2 r2 hn2
  have hl0 : r0.length = src.length - (k0 + 1) := by
    rw [hr0]; exact List.length_drop _ _
  have hl1 : r1.length = r0.length - (k1 + 1) := by
    rw [hr1]; exact List.length_drop _ _
  have hl2 : r2.length = r1.length - (k2 + 1) := by
    rw [hr2]; exact List.length_drop _ _
  have hd1 : r1 = src.drop ((k0 + 1) + (k1 + 1)) := by
    rw [hr1]; exact drop_of_drop src r0 (k0 + 1) (k1 + 1) hr0
  have hd2 : r2 = src.drop ((k0 + 1) + (k1 + 1) + (k2 + 1)) := by
    rw [hr2]; exact drop_of_drop src r1 ((k0 + 1) + (k1 + 1)) (k2 + 1) hd1
  cases hv2 : b64Val c2 with
  | some v2 =>
    rw [hv2] at h
    dsimp only at h
    cases hn3 : nextB64Char r2 with
    | none => rw [hn3] at h; exact absurd h (by simp)
    | some p3 =>
    obtain ⟨c3, r3⟩ := p3
    rw [hn3] at h
    dsimp only at h
    obtain ⟨k3, hk3, hr3⟩ := nextB64Char_some r2 c3 r3 hn3
    have hd3 : r3 = src.drop ((k0 + 1) + (k1 + 1) + (k2 + 1) + (k3 + 1)) := by
      rw [hr3]
      exact drop_of_drop src r2 ((k0 + 1) + (k1 + 1) + (k2 + 1)) (k3 + 1) hd2
    cases hv3 : b64Val c3 with
    | some v3 =>
      rw [hv3] at h
      dsimp only at h
      simp only [Except.ok.injEq, Option.some.injEq, Prod.mk.injEq] at h
      obtain ⟨hb, hr⟩ := h
      subst hb
      subst hr
      refine ⟨by simp, (k0 + 1) + (k1 + 1) + (k2 + 1) + (k3 + 1),
        by omega, by omega, hd3⟩
    | none =>
      rw [hv3] at h
      dsimp only at h
      split at h
      · cases hn4 : nextB64Char r3 with
        | none =>
          rw [hn4] at h
          simp only [Except.ok.injEq, Option.some.injEq, Prod.mk.injEq] at h
          obtain ⟨hb, hr⟩ := h
          subst hb
          subst hr
          refine ⟨by simp, src.length, by omega, by omega, ?_⟩
          rw [List.drop_length]
        | some p4 => rw [hn4] at h; exact absurd h (by simp)
      · exact absurd h (by simp)
  | none =>
    rw [hv2] at h
    dsimp only at h
    split at h
    · cases hn3 : nextB64Char r2 with
      | none => rw [hn3] at h; exact absurd h (by simp)
      | some p3 =>
      obtain ⟨c3, r3⟩ := p3
      rw [hn3] at h
      dsimp only at h
      obtain ⟨k3, hk3, hr3⟩ := nextB64Char_some r2 c3 r3 hn3
      split at h
      · cases hn4 : nextB64Char r3 with
        | none =>
          rw [hn4] at h
          simp only [Except.ok.injEq, Option.some.injEq, Prod.mk.injEq] at h
          obtain ⟨hb, hr⟩ := h
          subst hb
          subst hr
          refine ⟨by simp, src.length, by omega, by omega, ?_⟩
          rw [List.drop_length]
        | some p4 => rw [hn4] at h; exact absurd h (by simp)
      · exact absurd h (by simp)
    · exact absurd h (by simp)

theorem b64DecodeLoop_succ (fuel : Nat) (src : List Nat) :
    b64DecodeLoop (fuel + 1) src =
      match decodeQuantum src with
      | Except.error e => Except.error e
      | Except.ok none => Except.ok []
      | Except.ok (some (bytes, rest)) =>
        match b64DecodeLoop fuel rest with
        | Except.error e => Except.error e
        | Except.ok tl => Except.ok (bytes ++ tl) := rfl

theorem b64InPlaceLoop_succ (fuel : Nat) (buf : List Nat) (wp rp : Nat) :
    b64InPlaceLoop (fuel + 1) buf wp rp =
      match decodeQuantum (buf.drop rp) with
      | Except.error e => Except.error e
      | Except.ok none => Except.ok (buf, wp)
      | Except.ok (some (bytes, rest)) =>
        b64InPlaceLoop fuel (overwriteAt buf wp bytes) (wp + bytes.length)
          (rp + (buf.length - rp - rest.length)) := rfl

/-- More fuel than source bytes makes the decode loop fuel-independent. -/
theorem b64DecodeLoop_fuel (f1 : Nat) :
    ∀ (f2 : Nat) (src : List Nat), src.length < f1 → src.length < f2 →
      b64DecodeLoop f1 src = b64DecodeLoop f2 src := by
  induction f1 with
  | zero => intro f2 src h1 _; omega
  | succ n ih =>
    intro f2 src h1 h2
    cases f2 with
    | zero => omega
    | succ m =>
      rw [b64DecodeLoop_succ, b64DecodeLoop_succ]
      cases hq : decodeQuantum src with
      | error e => rfl
      | ok oq =>
        cases oq with
        | none => rfl
        | some pr =>
          obtain ⟨bytes, rest⟩ := pr
          obtain ⟨hblen, c, hc4, hcle, hrest⟩ :=
            decodeQuantum_some src bytes rest hq
          have hrlen : rest.length = src.length - c := by
            rw [hrest]; exact List.length_drop _ _
          dsimp only
          rw [ih m rest (by omega) (by omega)]

/-- The overwriting decode agrees with the pure decode of the original
source suffix: because each quantum reads at least four bytes at the read
cursor and writes at most three at the (strictly lower) write cursor, the
bytes still to be read are never overwritten. -/
theorem b64InPlaceLoop_spec (fuel : Nat) :
    ∀ (buf : List Nat) (wp rp : Nat), wp + 7 ≤ rp → rp ≤ buf.length →
      (∀ e, b64DecodeLoop fuel (buf.drop rp) = Except.error e →
        b64InPlaceLoop fuel buf wp rp = Except.error e) ∧
      (∀ out, b64DecodeLoop fuel (buf.drop rp) = Except.ok out →
        out.length + rp ≤ buf.length ∧
        b64InPlaceLoop fuel buf wp rp =
          Except.ok (overwriteAt buf wp out, wp + out.length)) := by
  induction fuel with
  | zero =>
    intro buf wp rp hwr hrl
    constructor
    · intro e he
      rw [show b64InPlaceLoop 0 buf wp rp = Except.error () from rfl]
    · intro out hout
      exact absurd hout (by simp [b64DecodeLoop])
  | succ n ih =>
    intro buf wp rp hwr hrl
    cases hq : decodeQuantum (buf.drop rp) with
    | error eq0 =>
      constructor
      · intro e he
        rw [b64DecodeLoop_succ, hq] at he
        rw [b64InPlaceLoop_succ, hq]
      · intro out hout
        rw [b64DecodeLoop_succ, hq] at hout
        exact absurd hout (by simp)
    | ok oq =>
      cases oq with
      | none =>
        constructor
        · intro e he
          rw [b64DecodeLoop_succ, hq] at he
          exact absurd he (by simp)
        · intro out hout
          rw [b64DecodeLoop_succ, hq] at hout
          dsimp only at hout
          have hoeq : out = [] := by simpa using hout.symm
          subst hoeq
          rw [b64InPlaceLoop_succ, hq]
          refine ⟨by simp only [List.length_nil]; omega, ?_⟩
          rw [overwriteAt_nil]
          simp
      | some pr =>
        obtain ⟨bytes, rest⟩ := pr
        obtain ⟨hblen, c, hc4, hcle, hrest⟩ :=
          decodeQuantum_some (buf.drop rp) bytes rest hq
        have hlod : (buf.drop rp).length = buf.length - rp :=
          List.length_drop _ _
        have hrlen : rest.length = (buf.drop rp).length - c := by
          rw [hrest]; exact List.length_drop _ _
        have hcomp : buf.length - rp - rest.length = c := by omega
        have hbuf' : (overwriteAt buf wp bytes).length = buf.length :=
          overwriteAt_length buf bytes wp (by omega)
        have hdropeq : (overwriteAt buf wp bytes).drop (rp + c) =
            buf.drop (rp + c) :=
          overwriteAt_drop_ge buf bytes wp (rp + c) (by omega) (by omega)
        have hrest' : buf.drop (rp + c) = rest := by
          rw [hrest]
          exact (drop_of_drop buf (buf.drop rp) rp c rfl).symm
        have ihh := ih (overwriteAt buf wp bytes) (wp + bytes.length)
          (rp + c) (by omega) (by rw [hbuf']; omega)
        rw [hdropeq, hrest'] at ihh
        constructor
        · intro e he
          rw [b64DecodeLoop_succ, hq] at he
          dsimp only at he
          rw [b64InPlaceLoop_succ, hq]
          dsimp only
          rw [hcomp]
          cases hrec : b64DecodeLoop n rest with
          | error e2 =>
            rw [hrec] at he
            dsimp only at he
            cases he
            exact ihh.1 e2 hrec
          | ok tl =>
            rw [hrec] at he
            dsimp only at he
            exact absurd he (by simp)
        · intro out hout
          rw [b64DecodeLoop_succ, hq] at hout
          dsimp only at hout
          rw [b64InPlaceLoop_succ, hq]
          dsimp only
          rw [hcomp]
          cases hrec : b64DecodeLoop n rest with
          | error e2 =>
            rw [hrec] at hout
            dsimp only at hout
            exact absurd hout (by simp)
          | ok tl =>
            rw [hrec] at hout
            dsimp only at hout
            have hoeq : out = bytes ++ tl := by simpa using hout.symm
            subst hoeq
            obtain ⟨htl_len, hres⟩ := ihh.2 tl hrec
            rw [hbuf'] at htl_len
            refine ⟨by simp only [List.length_append]; omega, ?_⟩
            rw [hres, overwriteAt_append buf bytes tl wp (by omega)]
            simp only [List.length_append, Nat.add_assoc]

theorem listStartsWith_length : ∀ (data pat : List Nat),
    listStartsWith data pat = true → pat.length ≤ data.length
  | _, [], _ => by simp
  | [], _ :: _, h => by cases h
  | a :: as, b :: bs, h => by
    rw [listStartsWith] at h
    have hrec := listStartsWith_length as bs (Bool.and_elim_right h)
    simpa using Nat.succ_le_succ hrec

theorem bytesIndex_le (pat : List Nat) :
    ∀ (data : List Nat) (idx : Nat), bytesIndex pat data = some idx →
      idx + pat.length ≤ data.length := by
  intro data
  induction data with
  | nil =>
    intro idx h
    rw [bytesIndex] at h
    split at h
    · rename_i hsw
      cases h
      simpa using listStartsWith_length [] pat hsw
    · cases h
  | cons a rest ih =>
    intro idx h
    rw [bytesIndex] at h
    split at h
    · rename_i hsw
      cases h
      have := listStartsWith_length (a :: rest) pat hsw
      simpa using this
    · cases hb : bytesIndex pat rest with
      | none =>
        rw [hb] at h
        simp at h
      | some i =>
        rw [hb] at h
        simp only [Option.map_some'] at h
        have hidx : i + 1 = idx := by simpa using h
        have := ih i hb
        simp only [List.length_cons]
        omega

/-- C8: when the buffer contains the `"base64,"` marker (`bytesIndex`
returning its first occurrence `idx`), `decodeImageFromBase64` decodes
exactly the substring after the marker: on success the buffer handed to
the image decoder carries the standard base64 decoding of that substring
as its decoded prefix (followed by the untouched remainder of the
original buffer), and on a malformed payload the function fails with the
`Base64DecodeError` exit. -/
theorem decodeImageFromBase64_spec (data : List Nat) (idx : Nat)
    (h : bytesIndex base64Marker data = some idx) :
    decodeImageFromBase64Buf data =
      (goB64Decode (data.drop (idx + 7))).map
        (fun out => out ++ data.drop out.length) := by
  have hlen : idx + 7 ≤ data.length := by
    have := bytesIndex_le base64Marker data idx h
    simpa [base64Marker] using this
  unfold decodeImageFromBase64Buf
  rw [h]
  dsimp only
  have hspec := b64InPlaceLoop_spec (data.length + 1) data 0 (idx + 7)
    (by omega) (by omega)
  have hdl : (data.drop (idx + 7)).length = data.length - (idx + 7) :=
    List.length_drop _ _
  have hfuel : b64DecodeLoop (data.length + 1) (data.drop (idx + 7)) =
      b64DecodeLoop ((data.drop (idx + 7)).length + 1) (data.drop (idx + 7)) :=
    b64DecodeLoop_fuel _ _ _ (by omega) (by omega)
  rw [hfuel] at hspec
  cases hg : b64DecodeLoop ((data.drop (idx + 7)).length + 1)
      (data.drop (idx + 7)) with
  | error e =>
    rw [hspec.1 e hg]
    show Except.error e = (goB64Decode (data.drop (idx + 7))).map _
    unfold goB64Decode
    rw [hg]
    rfl
  | ok out =>
    obtain ⟨hol, hres⟩ := hspec.2 out hg
    rw [hres]
    show Except.ok (overwriteAt data 0 out) =
      (goB64Decode (data.drop (idx + 7))).map
        (fun out => out ++ data.drop out.length)
    unfold goB64Decode
    rw [hg]
    show Except.ok (overwriteAt data 0 out) =
      Except.ok (out ++ data.drop out.length)
    unfold overwriteAt
    simp

/-- The bytes of the data URI "data:image/png;base64,AAAA". -/
def b64ExampleData : List Nat :=
  [100, 97, 116, 97, 58, 105, 109, 97, 103, 101, 47, 112, 110, 103, 59,
   98, 97, 115, 101, 54, 52, 44, 65, 65, 65, 65]

theorem decodeImageFromBase64_spec_witness :
    decodeImageFromBase64Buf b64ExampleData =
      (goB64Decode (b64ExampleData.drop (15 + 7))).map
        (fun out => out ++ b64ExampleData.drop out.length) ∧
    decodeImageFromBase64Buf b64ExampleData =
      Except.ok ([0, 0, 0] ++ b64ExampleData.drop 3) :=
  ⟨decodeImageFromBase64_spec b64ExampleData 15 (by decide),
   by rw [decodeImageFromBase64_spec b64ExampleData 15 (by decide)]; rfl⟩
